import Mathlib

/- Verification of the ms duration-string library: the parse engine (input
   length guard, LRU result cache, fast-path lookup table, duration grammar,
   unit-multiplier table) and the format engine (threshold walk, rounding,
   pluralization), shallowly embedded from the TypeScript source.

   JavaScript numbers are modelled as exact rationals in lowest terms.
   Every numeric constant and every arithmetic step exercised by the claims
   (short decimal magnitudes times the integer unit multipliers, and the
   formatter's divisions of small integers) is exact in IEEE-754 doubles,
   so the rational model returns the very values the JavaScript code does
   there.  NaN is modelled as a dedicated value constructor, matching its
   use in the source as a sentinel value distinct from every number.
   Strings in all claims are ASCII, where JavaScript's UTF-16 length and
   toLowerCase agree with the character-list model used here. -/

deriving instance DecidableEq for Except

namespace Ms

/-- Euclidean gcd with explicit fuel (the first argument strictly decreases,
so fuel `a` suffices); written this way so normalization reduces inside the
kernel, which `Nat.gcd` (well-founded recursion) does not. -/
def qgcdF : Nat → Nat → Nat → Nat
  | 0, _, b => b
  | f + 1, a, b => if a = 0 then b else qgcdF f (b % a) a

def qgcd (a b : Nat) : Nat := qgcdF a a b

/-- Exact rationals in lowest terms with positive denominator, standing in
for JavaScript IEEE-754 numbers.  All values built by the operations below
from the smart constructor `mkQ` are canonical, so structural equality is
value equality, as for JavaScript numbers. -/
structure Q where
  num : Int
  den : Nat
deriving DecidableEq

/-- Normalizing constructor: sign on the numerator, denominator positive,
lowest terms.  A zero denominator cannot arise in this development. -/
def mkQ (n dnm : Int) : Q :=
  if dnm = 0 then ⟨0, 1⟩
  else
    let n1 := if dnm < 0 then -n else n
    let d1 := (if dnm < 0 then -dnm else dnm).toNat
    let g := qgcd n1.natAbs d1
    ⟨n1 / (g : Int), d1 / g⟩

def qOfInt (n : Int) : Q := ⟨n, 1⟩

def qMul (a b : Q) : Q := mkQ (a.num * b.num) ((a.den : Int) * (b.den : Int))

def qAdd (a b : Q) : Q :=
  mkQ (a.num * (b.den : Int) + b.num * (a.den : Int)) ((a.den : Int) * (b.den : Int))

def qDiv (a b : Q) : Q := mkQ (a.num * (b.den : Int)) ((a.den : Int) * b.num)

def qNeg (a : Q) : Q := ⟨-a.num, a.den⟩

/-- JavaScript Math.abs. -/
def qAbs (a : Q) : Q := ⟨(a.num.natAbs : Int), a.den⟩

/-- Decides a ≤ b (denominators are positive on all values built here). -/
def qLe (a b : Q) : Bool := a.num * (b.den : Int) ≤ b.num * (a.den : Int)

def qFloor (a : Q) : Int := Int.fdiv a.num (a.den : Int)

/-- JavaScript Math.round: round half toward positive infinity. -/
def jsRound (q : Q) : Int := qFloor (qAdd q (mkQ 1 2))

/- Unit constants, from the source:
     const s = 1000; const m = s * 60; const h = m * 60; const d = h * 24;
     const w = d * 7; const y = d * 365.25; const mo = y / 12;
   365.25 is the exact double 1461/4. -/

def s : Q := qOfInt 1000
def m : Q := qMul s (qOfInt 60)
def h : Q := qMul m (qOfInt 60)
def d : Q := qMul h (qOfInt 24)
def w : Q := qMul d (qOfInt 7)
def y : Q := qMul d (mkQ 1461 4)
def mo : Q := qDiv y (qOfInt 12)

/-- Association-list lookup, modelling lookup of an own property of a plain
object (and lookup in a Map, whose keys are unique). -/
def lookupList {α : Type} : List (String × α) → String → Option α
  | [], _ => none
  | (a, b) :: t, k => if a = k then some b else lookupList t k

/-- The unitMultipliers own properties, in source order (lines 204-213). -/
def unitMultipliersList : List (String × Q) :=
  [("years", y), ("year", y), ("yrs", y), ("yr", y), ("y", y),
   ("months", mo), ("month", mo), ("mo", mo),
   ("weeks", w), ("week", w), ("w", w),
   ("days", d), ("day", d), ("d", d),
   ("hours", h), ("hour", h), ("hrs", h), ("hr", h), ("h", h),
   ("minutes", m), ("minute", m), ("mins", m), ("min", m), ("m", m),
   ("seconds", s), ("second", s), ("secs", s), ("sec", s), ("s", s),
   ("milliseconds", qOfInt 1), ("millisecond", qOfInt 1), ("msecs", qOfInt 1),
   ("msec", qOfInt 1), ("ms", qOfInt 1)]

/-- unitMultipliers[matchUnit].  matchUnit is always one of the regex's unit
words, which are own properties of the table, so the prototype chain is
irrelevant for this lookup. -/
def unitMultipliers (u : String) : Option Q := lookupList unitMultipliersList u

/-- The commonValues fast-path table's own properties (source lines 163-201). -/
def commonValuesList : List (String × Q) :=
  [("1s", qOfInt 1000), ("2s", qOfInt 2000), ("5s", qOfInt 5000),
   ("10s", qOfInt 10000), ("15s", qOfInt 15000), ("30s", qOfInt 30000),
   ("1m", qOfInt 60000), ("2m", qOfInt 120000), ("5m", qOfInt 300000),
   ("10m", qOfInt 600000), ("15m", qOfInt 900000), ("30m", qOfInt 1800000),
   ("1h", qOfInt 3600000), ("2h", qOfInt 7200000), ("3h", qOfInt 10800000),
   ("6h", qOfInt 21600000), ("12h", qOfInt 43200000),
   ("1d", qOfInt 86400000), ("2d", qOfInt 172800000), ("7d", qOfInt 604800000),
   ("1w", qOfInt 604800000), ("2w", qOfInt 1209600000),
   ("1mo", qOfInt 2629800000), ("1y", qOfInt 31557600000),
   ("1 s", qOfInt 1000), ("1 m", qOfInt 60000), ("1 h", qOfInt 3600000),
   ("1 d", qOfInt 86400000), ("1 w", qOfInt 604800000),
   ("100", qOfInt 100), ("1000", qOfInt 1000), ("5000", qOfInt 5000)]

def memStr (x : String) : List String → Bool
  | [] => false
  | a :: t => if a = x then true else memStr x t

/-- The properties of Object.prototype (ECMA-262, including the Annex-B
accessors present in Node).  commonValues is a plain object literal, so the
property read commonValues[str] falls through to these inherited members
when str is not an own key; the read then yields a function (or, for
"constructor" and "__proto__", an object), never undefined. -/
def protoProps : List String :=
  ["constructor", "hasOwnProperty", "isPrototypeOf", "propertyIsEnumerable",
   "toLocaleString", "toString", "valueOf", "__proto__", "__defineGetter__",
   "__defineSetter__", "__lookupGetter__", "__lookupSetter__"]

/-- A JavaScript value as far as this code can observe one: a (finite)
number, the NaN sentinel, or an inherited Object.prototype member leaked
out of the fast-path table by the prototype chain. -/
inductive JSVal where
  | num (q : Q)
  | nan
  | protoRef (name : String)
deriving DecidableEq

/-- The property read commonValues[str]: own properties first, then the
prototype chain of a plain object literal. -/
def commonValuesJS (str : String) : Option JSVal :=
  match lookupList commonValuesList str with
  | some v => some (.num v)
  | none => if memStr str protoProps then some (.protoRef str) else none

/- The pre-compiled parse regex (source line 124):
     parseRegex = /^(?<value>-?\d*\.?\d+) *(?<unit>milliseconds?|msecs?|ms|
       seconds?|secs?|s|minutes?|mins?|m|hours?|hrs?|h|days?|d|weeks?|w|
       months?|mo|years?|yrs?|y)?$/i
   The value atom uses only the characters - . 0-9, the space atom only
   the space character, and every unit word only letters, and the match is
   anchored at both ends; since those three alphabets are disjoint, a
   string matches iff it splits uniquely as
     (maximal run of - . digit characters, matching -?\d*\.?\d+)
     ++ (run of spaces) ++ (a unit word, case-insensitively, or nothing),
   which is what msMatch below decides, returning the value capture and the
   unit capture (the unit with its original casing, as the regex captures
   it; parse lowercases it afterwards, mirroring unit.toLowerCase()). -/

def isNumChar (c : Char) : Bool :=
  c.toNat = 45 || c.toNat = 46 || (48 ≤ c.toNat && c.toNat ≤ 57)

def isSpaceChar (c : Char) : Bool := c.toNat = 32

def isDigitChar (c : Char) : Bool := 48 ≤ c.toNat && c.toNat ≤ 57

def isDotChar (c : Char) : Bool := c.toNat = 46

/-- ASCII lowercasing, the effect of toLowerCase and of the regex i flag on
the ASCII spellings this grammar deals in. -/
def lowerChar (c : Char) : Char :=
  if 65 ≤ c.toNat && c.toNat ≤ 90 then Char.ofNat (c.toNat + 32) else c

def lowerStr (l : List Char) : String := String.mk (l.map lowerChar)

/-- Split a character list at the first character satisfying p, dropping
that character; none when no character satisfies p. -/
def splitFirst (p : Char → Bool) : List Char → Option (List Char × List Char)
  | [] => none
  | c :: t =>
    if p c then some ([], t)
    else
      match splitFirst p t with
      | none => none
      | some (a, b) => some (c :: a, b)

def allDigits (l : List Char) : Bool := l.all isDigitChar

/-- The language of \d*\.?\d+ : digits, or digits dot digits with at least
one digit after the dot. -/
def numBody (l : List Char) : Bool :=
  match splitFirst isDotChar l with
  | none => !l.isEmpty && allDigits l
  | some (a, b) => allDigits a && !b.isEmpty && allDigits b

/-- The language of the value atom -?\d*\.?\d+ . -/
def numberTok (l : List Char) : Bool :=
  match l with
  | [] => false
  | c :: t => if c.toNat = 45 then numBody t else numBody l

/-- Every unit word of the regex alternation, expanded, in alternation
order; identical to the set of own keys of unitMultipliers. -/
def unitAlternatives : List String :=
  ["milliseconds", "millisecond", "msecs", "msec", "ms",
   "seconds", "second", "secs", "sec", "s",
   "minutes", "minute", "mins", "min", "m",
   "hours", "hour", "hrs", "hr", "h",
   "days", "day", "d", "weeks", "week", "w",
   "months", "month", "mo", "years", "year", "yrs", "yr", "y"]

def msMatch (str : String) : Option (List Char × Option (List Char)) :=
  let cs := str.toList
  let numPart := cs.takeWhile isNumChar
  let rest := cs.dropWhile isNumChar
  if numberTok numPart then
    let unitPart := rest.dropWhile isSpaceChar
    if unitPart.isEmpty then some (numPart, none)
    else if memStr (lowerStr unitPart) unitAlternatives then
      some (numPart, some unitPart)
    else none
  else none

/-- Numeric value of a digit run. -/
def digitsVal (l : List Char) : Nat :=
  l.foldl (fun a c => 10 * a + (c.toNat - 48)) 0

def pow10 (k : Nat) : Nat := 10 ^ k

/-- parseFloat on a string matching \d*\.?\d+ (exact rational value; the
doubles parseFloat produces agree on every magnitude the claims use). -/
def numBodyVal (l : List Char) : Q :=
  match splitFirst isDotChar l with
  | none => qOfInt (digitsVal l)
  | some (a, b) => qAdd (qOfInt (digitsVal a)) (mkQ (digitsVal b) (pow10 b.length))

/-- parseFloat on a string matching -?\d*\.?\d+ . -/
def numVal (l : List Char) : Q :=
  match l with
  | [] => qOfInt 0
  | c :: t => if c.toNat = 45 then qNeg (numBodyVal t) else numBodyVal l

/-- JSON.stringify of a string, as embedded in the error messages (quote
and backslash escapes; the control-character escapes never arise in this
development). -/
def jsonStringify (str : String) : String :=
  String.mk ('"' :: ((str.toList.map fun c =>
    if c.toNat = 34 then ['\\', '"']
    else if c.toNat = 92 then ['\\', '\\']
    else [c]).flatten ++ ['"']))

def lengthErrMsg (str : String) : String :=
  "Value provided to ms.parse() must be a string with length between 1 and 99. value="
    ++ jsonStringify str

def unknownUnitMsg (matchUnit str : String) : String :=
  "Unknown unit \"" ++ matchUnit ++ "\" provided to ms.parse(). value="
    ++ jsonStringify str

def defaultUnitChars : List Char := ['m', 's']

/-- The regex-match-to-number tail of parse (source lines 277-303): run the
regex; on failure the caller returns NaN; on success take the value and
unit captures (unit defaulting to "ms"), lowercase the unit, resolve it in
unitMultipliers, throw on a miss, else multiply. -/
def grammarResult (str : String) : Except String JSVal :=
  match msMatch str with
  | none => .ok .nan
  | some (value, unitOpt) =>
    let matchUnit := lowerStr (unitOpt.getD defaultUnitChars)
    match unitMultipliers matchUnit with
    | none => .error (unknownUnitMsg matchUnit str)
    | some multiplier => .ok (.num (qMul (numVal value) multiplier))

/-- The LRU cache (source lines 127-158): a Map from input string to parsed
value, iteration order = insertion order, first entry oldest. -/
structure LRUCache where
  entries : List (String × JSVal)
  maxSize : Nat
deriving DecidableEq

/-- Map.delete of a key (keys of a Map are unique; this removes the first,
hence the, occurrence). -/
def eraseKey : List (String × JSVal) → String → List (String × JSVal)
  | [], _ => []
  | (a, b) :: t, k => if a = k then t else (a, b) :: eraseKey t k

/-- LRUCache.get: on a hit, delete and re-insert at the end (promote to
most recently used); a miss leaves the cache untouched. -/
def LRUCache.get (c : LRUCache) (k : String) : Option JSVal × LRUCache :=
  match lookupList c.entries k with
  | none => (none, c)
  | some v => (some v, ⟨eraseKey c.entries k ++ [(k, v)], c.maxSize⟩)

/-- LRUCache.set: re-insert at the end if present; otherwise, when at
capacity, delete the first (oldest) key, then insert at the end.  (When the
cache is empty and maxSize is 0, firstKey is undefined and the delete is a
no-op, which List.tail on [] reproduces.) -/
def LRUCache.set (c : LRUCache) (k : String) (v : JSVal) : LRUCache :=
  if (lookupList c.entries k).isSome then
    ⟨eraseKey c.entries k ++ [(k, v)], c.maxSize⟩
  else if c.maxSize ≤ c.entries.length then
    ⟨c.entries.tail ++ [(k, v)], c.maxSize⟩
  else
    ⟨c.entries ++ [(k, v)], c.maxSize⟩

/-- parseCache = new LRUCache(100), empty at process start. -/
def initialCache : LRUCache := ⟨[], 100⟩

/-- parse (source lines 257-309), with the process-wide cache passed
explicitly: length guard (rejecting only length 0 and length above 100),
then cache lookup, then the commonValues property read, then the regex and
multiplier path; NaN is returned, not cached; computed and fast-path values
are inserted into the cache. -/
def parse (cache : LRUCache) (str : String) : Except String (JSVal × LRUCache) :=
  if str.length = 0 ∨ 100 < str.length then
    .error (lengthErrMsg str)
  else
    match LRUCache.get cache str with
    | (some cached, c1) => .ok (cached, c1)
    | (none, c1) =>
      match commonValuesJS str with
      | some v => .ok (v, LRUCache.set c1 str v)
      | none =>
        match grammarResult str with
        | .error e => .error e
        | .ok .nan => .ok (.nan, c1)
        | .ok v => .ok (v, LRUCache.set c1 str v)

/-- What parse computes for a string independently of the cache: the length
guard, the commonValues read (own properties, then prototype chain), then
the regex and multiplier path.  Every value parse ever returns or caches
for a string is this function's value at it. -/
def parseUncached (str : String) : Except String JSVal :=
  if str.length = 0 ∨ 100 < str.length then
    .error (lengthErrMsg str)
  else
    match commonValuesJS str with
    | some v => .ok v
    | none => grammarResult str

/-- Invariant of the process-wide cache: capacity 100, at most 100 resident
entries, and every resident entry holds the cache-independent parse value
of its key, which is never the NaN sentinel. -/
def cacheGood (c : LRUCache) : Prop :=
  c.maxSize = 100 ∧ c.entries.length ≤ 100 ∧
    ∀ p ∈ c.entries, parseUncached p.1 = .ok p.2 ∧ p.2 ≠ JSVal.nan

/-- Cache states the process can actually be in: the empty initial cache
and everything parse calls produce from it, in any order. -/
inductive Reachable : LRUCache → Prop where
  | init : Reachable initialCache
  | step {st st' : LRUCache} {str : String} {v : JSVal} :
      Reachable st → parse st str = .ok (v, st') → Reachable st'

/- The formatter (source lines 325-406). -/

def intStr (i : Int) : String := toString i

/-- Template-literal rendering of a number.  JavaScript prints a double in
shortest round-trip decimal; an integral value prints as a plain integer
(the only case the formatter claims exercise, since the sub-second fallback
is the only branch that can interpolate a fractional value).  For a
fractional value with a finite decimal expansion this prints that expansion
(what JavaScript prints for every such value the parser can produce); other
denominators cannot arise from a double and are rendered as fractions. -/
def qToString (q : Q) : String :=
  if q.den = 1 then intStr q.num
  else
    match (List.range 101).find? (fun e => pow10 e % q.den = 0) with
    | some e =>
      let sgn := if q.num < 0 then "-" else ""
      let na := q.num.natAbs
      let raw := toString (na % q.den * pow10 e / q.den)
      sgn ++ toString (na / q.den) ++ "." ++
        String.mk (List.replicate (e - raw.length) '0') ++ raw
    | none => intStr q.num ++ "/" ++ toString q.den

/-- fmtShort (source lines 325-349). -/
def fmtShort (ms : Q) : String :=
  let msAbs := qAbs ms
  if qLe y msAbs then intStr (jsRound (qDiv ms y)) ++ "y"
  else if qLe mo msAbs then intStr (jsRound (qDiv ms mo)) ++ "mo"
  else if qLe w msAbs then intStr (jsRound (qDiv ms w)) ++ "w"
  else if qLe d msAbs then intStr (jsRound (qDiv ms d)) ++ "d"
  else if qLe h msAbs then intStr (jsRound (qDiv ms h)) ++ "h"
  else if qLe m msAbs then intStr (jsRound (qDiv ms m)) ++ "m"
  else if qLe s msAbs then intStr (jsRound (qDiv ms s)) ++ "s"
  else qToString ms ++ "ms"

/-- plural (source lines 398-406): round the quotient and add an s exactly
when the absolute value reaches one and a half units. -/
def plural (ms msAbs n : Q) (name : String) : String :=
  let isPlural := qLe (qMul n (mkQ 3 2)) msAbs
  intStr (jsRound (qDiv ms n)) ++ " " ++ name ++ (if isPlural then "s" else "")

/-- fmtLong (source lines 354-378). -/
def fmtLong (ms : Q) : String :=
  let msAbs := qAbs ms
  if qLe y msAbs then plural ms msAbs y "year"
  else if qLe mo msAbs then plural ms msAbs mo "month"
  else if qLe w msAbs then plural ms msAbs w "week"
  else if qLe d msAbs then plural ms msAbs d "day"
  else if qLe h msAbs then plural ms msAbs h "hour"
  else if qLe m msAbs then plural ms msAbs m "minute"
  else if qLe s msAbs then plural ms msAbs s "second"
  else qToString ms ++ " ms"

/-- format (source lines 387-393): fmtLong when options.long, else
fmtShort.  The source first throws on a non-number or non-finite argument;
in this embedding every Q is a finite number, so that guard has no
realizable failing case and is omitted. -/
def format (ms : Q) (long : Bool) : String :=
  if long then fmtLong ms else fmtShort ms

/- Basic facts about the association-list and character-scanning helpers. -/

theorem toList_mk (l : List Char) : (String.mk l).toList = l := rfl

theorem length_mk (l : List Char) : (String.mk l).length = l.length := rfl

theorem lookupList_mem {α : Type} {l : List (String × α)} {k : String} {v : α}
    (hl : lookupList l k = some v) : (k, v) ∈ l := by
  induction l with
  | nil => simp [lookupList] at hl
  | cons p t ih =>
    obtain ⟨a, b⟩ := p
    by_cases hak : a = k
    · subst hak
      simp [lookupList] at hl
      simp [hl]
    · simp only [lookupList, if_neg hak] at hl
      exact List.mem_cons_of_mem _ (ih hl)

theorem lookupList_eq_none {α : Type} {l : List (String × α)} {k : String}
    (hk : k ∉ l.map Prod.fst) : lookupList l k = none := by
  induction l with
  | nil => rfl
  | cons p t ih =>
    obtain ⟨a, b⟩ := p
    simp only [List.map_cons, List.mem_cons, not_or] at hk
    have hak : a ≠ k := fun hh => hk.1 hh.symm
    simp only [lookupList, if_neg hak]
    exact ih hk.2

theorem eraseKey_subset {l : List (String × JSVal)} {k : String} {p : String × JSVal}
    (hp : p ∈ eraseKey l k) : p ∈ l := by
  induction l with
  | nil => simp [eraseKey] at hp
  | cons q t ih =>
    obtain ⟨a, b⟩ := q
    by_cases hak : a = k
    · rw [eraseKey, if_pos hak] at hp
      exact List.mem_cons_of_mem _ hp
    · rw [eraseKey, if_neg hak] at hp
      rcases List.mem_cons.mp hp with hh | hh
      · simp [hh]
      · exact List.mem_cons_of_mem _ (ih hh)

theorem eraseKey_length {l : List (String × JSVal)} {k : String} {v : JSVal}
    (hl : lookupList l k = some v) : (eraseKey l k).length + 1 = l.length := by
  induction l with
  | nil => simp [lookupList] at hl
  | cons q t ih =>
    obtain ⟨a, b⟩ := q
    by_cases hak : a = k
    · rw [eraseKey, if_pos hak]
      simp
    · rw [lookupList, if_neg hak] at hl
      rw [eraseKey, if_neg hak]
      simp only [List.length_cons]
      have := ih hl
      omega

theorem memStr_mem {x : String} {l : List String} (h : memStr x l = true) : x ∈ l := by
  induction l with
  | nil => simp [memStr] at h
  | cons a t ih =>
    by_cases hax : a = x
    · simp [hax]
    · rw [memStr, if_neg hax] at h
      exact List.mem_cons_of_mem _ (ih h)

theorem takeWhile_append_all {p : Char → Bool} {l1 l2 : List Char}
    (h : ∀ c ∈ l1, p c = true) :
    (l1 ++ l2).takeWhile p = l1 ++ l2.takeWhile p := by
  induction l1 with
  | nil => simp
  | cons c t ih =>
    have hc := h c (by simp)
    simp [List.takeWhile_cons, hc, ih fun x hx => h x (List.mem_cons_of_mem _ hx)]

theorem dropWhile_append_all {p : Char → Bool} {l1 l2 : List Char}
    (h : ∀ c ∈ l1, p c = true) :
    (l1 ++ l2).dropWhile p = l2.dropWhile p := by
  induction l1 with
  | nil => simp
  | cons c t ih =>
    have hc := h c (by simp)
    simp [List.dropWhile_cons, hc, ih fun x hx => h x (List.mem_cons_of_mem _ hx)]

theorem takeWhile_eq_nil {p : Char → Bool} {l : List Char}
    (h : ∀ c t, l = c :: t → p c = false) : l.takeWhile p = [] := by
  cases l with
  | nil => rfl
  | cons c t => simp [List.takeWhile_cons, h c t rfl]

theorem dropWhile_eq_self {p : Char → Bool} {l : List Char}
    (h : ∀ c t, l = c :: t → p c = false) : l.dropWhile p = l := by
  cases l with
  | nil => rfl
  | cons c t => simp [List.dropWhile_cons, h c t rfl]

theorem splitFirst_none {p : Char → Bool} {l : List Char}
    (h : splitFirst p l = none) : ∀ c ∈ l, p c = false := by
  induction l with
  | nil => simp
  | cons c t ih =>
    rw [splitFirst] at h
    by_cases hc : p c = true
    · simp [hc] at h
    · intro x hx
      rcases List.mem_cons.mp hx with rfl | hx2
      · simpa using hc
      · refine ih ?_ x hx2
        rw [if_neg (by simpa using hc)] at h
        cases hst : splitFirst p t with
        | none => rfl
        | some ab =>
          obtain ⟨a, b⟩ := ab
          rw [hst] at h
          simp at h

theorem splitFirst_some {p : Char → Bool} {l a b : List Char}
    (h : splitFirst p l = some (a, b)) :
    (∀ c ∈ a, p c = false) ∧ ∃ c, p c = true ∧ l = a ++ c :: b := by
  induction l generalizing a with
  | nil => simp [splitFirst] at h
  | cons c t ih =>
    rw [splitFirst] at h
    by_cases hc : p c = true
    · rw [if_pos hc] at h
      simp only [Option.some.injEq, Prod.mk.injEq] at h
      obtain ⟨h1, h2⟩ := h
      subst h1
      subst h2
      exact ⟨by simp, c, hc, rfl⟩
    · rw [if_neg hc] at h
      cases hst : splitFirst p t with
      | none => rw [hst] at h; simp at h
      | some ab =>
        obtain ⟨a1, b1⟩ := ab
        rw [hst] at h
        simp only [Option.some.injEq, Prod.mk.injEq] at h
        obtain ⟨h1, h2⟩ := h
        subst h1
        subst h2
        obtain ⟨ha1, cd, hcd, rfl⟩ := ih hst
        refine ⟨?_, cd, hcd, by simp⟩
        intro x hx
        rcases List.mem_cons.mp hx with rfl | hx2
        · simpa using hc
        · exact ha1 x hx2

theorem allDigits_isNumChar {l : List Char} (h : allDigits l = true) :
    ∀ c ∈ l, isNumChar c = true := by
  intro c hc
  have hd := List.all_eq_true.mp h c hc
  simp only [isDigitChar, Bool.and_eq_true, decide_eq_true_eq] at hd
  simp only [isNumChar, Bool.or_eq_true, decide_eq_true_eq, Bool.and_eq_true]
  omega

theorem numBody_chars {l : List Char} (h : numBody l = true) :
    l ≠ [] ∧ ∀ c ∈ l, isNumChar c = true := by
  rw [numBody] at h
  cases hsp : splitFirst isDotChar l with
  | none =>
    rw [hsp] at h
    rw [Bool.and_eq_true] at h
    obtain ⟨h1, h2⟩ := h
    refine ⟨?_, allDigits_isNumChar h2⟩
    intro hnil
    rw [hnil] at h1
    simp at h1
  | some ab =>
    obtain ⟨a, b⟩ := ab
    rw [hsp] at h
    rw [Bool.and_eq_true, Bool.and_eq_true] at h
    obtain ⟨⟨ha, hb0⟩, hb⟩ := h
    obtain ⟨-, cdot, hdot, rfl⟩ := splitFirst_some hsp
    constructor
    · simp
    · intro c hc
      rcases List.mem_append.mp hc with h1 | h2
      · exact allDigits_isNumChar ha c h1
      · rcases List.mem_cons.mp h2 with rfl | h3
        · simp only [isDotChar, decide_eq_true_eq] at hdot
          simp only [isNumChar, Bool.or_eq_true, decide_eq_true_eq]
          omega
        · exact allDigits_isNumChar hb c h3

theorem numberTok_chars {l : List Char} (h : numberTok l = true) :
    l ≠ [] ∧ ∀ c ∈ l, isNumChar c = true := by
  cases l with
  | nil => simp [numberTok] at h
  | cons c t =>
    rw [numberTok] at h
    by_cases hc : c.toNat = 45
    · rw [if_pos hc] at h
      have hb := numBody_chars h
      refine ⟨by simp, ?_⟩
      intro x hx
      rcases List.mem_cons.mp hx with rfl | hx2
      · simp [isNumChar, hc]
      · exact hb.2 x hx2
    · rw [if_neg hc] at h
      exact numBody_chars h

/- Facts about the fixed tables, checked by evaluation. -/

/-- Every unit word of the regex alternation is a nonempty string of ASCII
lowercase letters. -/
theorem unitAlternatives_chars :
    ∀ a ∈ unitAlternatives, a.data ≠ [] ∧ ∀ c ∈ a.data, 97 ≤ c.toNat ∧ c.toNat ≤ 122 := by
  decide

/-- Every own key of the unitMultipliers table is a unit word of the regex
alternation (the grammar and the table are in sync). -/
theorem unitKeys_in_alternatives :
    ∀ p ∈ unitMultipliersList, memStr p.1 unitAlternatives = true := by
  decide

/-- Every fast-path table entry's value is exactly what the regex and
multiplier path computes for its key. -/
theorem commonValues_grammar :
    ∀ p ∈ commonValuesList, grammarResult p.1 = .ok (.num p.2) := by
  decide

/-- Every fast-path table key has length between 1 and 100, so the length
guard never fires on it. -/
theorem commonValues_keyLen :
    ∀ p ∈ commonValuesList, 1 ≤ p.1.length ∧ p.1.length ≤ 100 := by
  decide

/-- No Object.prototype member name starts with a character of the numeric
atom's alphabet. -/
theorem protoProps_head :
    ∀ pn ∈ protoProps, pn.data.head?.all (fun c => !isNumChar c) = true := by
  decide

/-- A character that ASCII-lowercases into a lowercase letter is neither in
the numeric atom's alphabet nor a space. -/
theorem char_not_num_of_lower {c : Char}
    (h1 : 97 ≤ (lowerChar c).toNat) (h2 : (lowerChar c).toNat ≤ 122) :
    isNumChar c = false ∧ isSpaceChar c = false := by
  rw [lowerChar] at h1 h2
  by_cases hc : (65 ≤ c.toNat && c.toNat ≤ 90) = true
  · rw [Bool.and_eq_true] at hc
    simp only [decide_eq_true_eq] at hc
    simp only [isNumChar, isSpaceChar, Bool.or_eq_false_iff, Bool.and_eq_false_iff,
      decide_eq_false_iff_not]
    omega
  · rw [if_neg hc] at h1 h2
    simp only [isNumChar, isSpaceChar, Bool.or_eq_false_iff, Bool.and_eq_false_iff,
      decide_eq_false_iff_not]
    omega

/-- A character list whose ASCII lowercasing is a unit word is nonempty and
contains no numeric-atom characters and no spaces. -/
theorem unit_chars {u : List Char}
    (h : memStr (lowerStr u) unitAlternatives = true) :
    u ≠ [] ∧ ∀ c ∈ u, isNumChar c = false ∧ isSpaceChar c = false := by
  have hmem := memStr_mem h
  obtain ⟨hne, hall⟩ := unitAlternatives_chars _ hmem
  have hdata : (lowerStr u).data = u.map lowerChar := rfl
  rw [hdata] at hne hall
  constructor
  · intro hnil
    rw [hnil] at hne
    simp at hne
  · intro c hc
    have hcl := hall (lowerChar c) (List.mem_map_of_mem _ hc)
    exact char_not_num_of_lower hcl.1 hcl.2

/-- Space characters are not in the numeric atom's alphabet. -/
theorem space_not_num {c : Char} (h : isSpaceChar c = true) : isNumChar c = false := by
  simp only [isSpaceChar, decide_eq_true_eq] at h
  simp only [isNumChar, Bool.or_eq_false_iff, Bool.and_eq_false_iff,
    decide_eq_false_iff_not]
  omega

/-- The matcher on a string assembled from a value atom, spaces, and a unit
word recovers exactly those components. -/
theorem msMatch_composed {n sp u : List Char}
    (hn : numberTok n = true)
    (hsp : ∀ c ∈ sp, isSpaceChar c = true)
    (hu : memStr (lowerStr u) unitAlternatives = true) :
    msMatch (String.mk (n ++ sp ++ u)) = some (n, some u) := by
  obtain ⟨hn0, hnc⟩ := numberTok_chars hn
  obtain ⟨hu0, huc⟩ := unit_chars hu
  have hheadNum : ∀ c t, sp ++ u = c :: t → isNumChar c = false := by
    intro c t hct
    cases sp with
    | nil =>
      simp only [List.nil_append] at hct
      exact (huc c (by rw [hct]; simp)).1
    | cons c1 t1 =>
      simp only [List.cons_append, List.cons.injEq] at hct
      rw [← hct.1]
      exact space_not_num (hsp c1 (by simp))
  have hheadSp : ∀ c t, u = c :: t → isSpaceChar c = false := by
    intro c t hct
    exact (huc c (by rw [hct]; simp)).2
  rw [msMatch]
  rw [toList_mk, List.append_assoc]
  rw [takeWhile_append_all hnc, takeWhile_eq_nil hheadNum, List.append_nil]
  rw [dropWhile_append_all hnc, dropWhile_eq_self hheadNum]
  rw [if_pos hn]
  rw [dropWhile_append_all hsp, dropWhile_eq_self hheadSp]
  have hu0e : u.isEmpty = false := by
    cases u with
    | nil => exact absurd rfl hu0
    | cons a b => rfl
  simp only [hu0e, Bool.false_eq_true, if_false, if_pos hu]

/-- The regex-and-multiplier tail on such an assembled string computes
parseFloat of the value atom times the unit's multiplier. -/
theorem grammarResult_composed {n sp u : List Char} {mult : Q}
    (hn : numberTok n = true)
    (hsp : ∀ c ∈ sp, isSpaceChar c = true)
    (hu : unitMultipliers (lowerStr u) = some mult) :
    grammarResult (String.mk (n ++ sp ++ u)) = .ok (.num (qMul (numVal n) mult)) := by
  have hmem : memStr (lowerStr u) unitAlternatives = true :=
    unitKeys_in_alternatives _ (lookupList_mem hu)
  rw [grammarResult, msMatch_composed hn hsp hmem]
  simp only [Option.getD_some]
  rw [hu]

/- Branch lemmas for parse and parseUncached. -/

theorem parse_badlen {st : LRUCache} {str : String}
    (hl : str.length = 0 ∨ 100 < str.length) :
    parse st str = .error (lengthErrMsg str) := by
  rw [parse, if_pos hl]

theorem parseUncached_badlen {str : String}
    (hl : str.length = 0 ∨ 100 < str.length) :
    parseUncached str = .error (lengthErrMsg str) := by
  rw [parseUncached, if_pos hl]

theorem cacheGet_hit {c : LRUCache} {k : String} {v : JSVal}
    (hl : lookupList c.entries k = some v) :
    LRUCache.get c k = (some v, ⟨eraseKey c.entries k ++ [(k, v)], c.maxSize⟩) := by
  rw [LRUCache.get, hl]

theorem cacheGet_miss {c : LRUCache} {k : String}
    (hl : lookupList c.entries k = none) : LRUCache.get c k = (none, c) := by
  rw [LRUCache.get, hl]

theorem parse_hit {st : LRUCache} {str : String} {v : JSVal}
    (hlen : ¬(str.length = 0 ∨ 100 < str.length))
    (hlk : lookupList st.entries str = some v) :
    parse st str = .ok (v, ⟨eraseKey st.entries str ++ [(str, v)], st.maxSize⟩) := by
  rw [parse, if_neg hlen, cacheGet_hit hlk]

theorem parse_miss_common {st : LRUCache} {str : String} {wv : JSVal}
    (hlen : ¬(str.length = 0 ∨ 100 < str.length))
    (hlk : lookupList st.entries str = none)
    (hcv : commonValuesJS str = some wv) :
    parse st str = .ok (wv, LRUCache.set st str wv) := by
  rw [parse, if_neg hlen, cacheGet_miss hlk, hcv]

theorem parse_miss_err {st : LRUCache} {str : String} {e : String}
    (hlen : ¬(str.length = 0 ∨ 100 < str.length))
    (hlk : lookupList st.entries str = none)
    (hcv : commonValuesJS str = none)
    (hgr : grammarResult str = .error e) :
    parse st str = .error e := by
  rw [parse, if_neg hlen, cacheGet_miss hlk, hcv, hgr]

theorem parse_miss_nan {st : LRUCache} {str : String}
    (hlen : ¬(str.length = 0 ∨ 100 < str.length))
    (hlk : lookupList st.entries str = none)
    (hcv : commonValuesJS str = none)
    (hgr : grammarResult str = .ok .nan) :
    parse st str = .ok (.nan, st) := by
  rw [parse, if_neg hlen, cacheGet_miss hlk, hcv, hgr]

theorem parse_miss_num {st : LRUCache} {str : String} {q : Q}
    (hlen : ¬(str.length = 0 ∨ 100 < str.length))
    (hlk : lookupList st.entries str = none)
    (hcv : commonValuesJS str = none)
    (hgr : grammarResult str = .ok (.num q)) :
    parse st str = .ok (.num q, LRUCache.set st str (.num q)) := by
  rw [parse, if_neg hlen, cacheGet_miss hlk, hcv, hgr]

theorem parse_miss_proto {st : LRUCache} {str : String} {nm : String}
    (hlen : ¬(str.length = 0 ∨ 100 < str.length))
    (hlk : lookupList st.entries str = none)
    (hcv : commonValuesJS str = none)
    (hgr : grammarResult str = .ok (.protoRef nm)) :
    parse st str = .ok (.protoRef nm, LRUCache.set st str (.protoRef nm)) := by
  rw [parse, if_neg hlen, cacheGet_miss hlk, hcv, hgr]

theorem parseUncached_common {str : String} {wv : JSVal}
    (hlen : ¬(str.length = 0 ∨ 100 < str.length))
    (hcv : commonValuesJS str = some wv) :
    parseUncached str = .ok wv := by
  rw [parseUncached, if_neg hlen, hcv]

theorem parseUncached_gr {str : String}
    (hlen : ¬(str.length = 0 ∨ 100 < str.length))
    (hcv : commonValuesJS str = none) :
    parseUncached str = grammarResult str := by
  rw [parseUncached, if_neg hlen, hcv]

theorem commonValuesJS_ne_nan {str : String} {wv : JSVal}
    (hcv : commonValuesJS str = some wv) : wv ≠ JSVal.nan := by
  rw [commonValuesJS] at hcv
  cases hlk : lookupList commonValuesList str with
  | some q =>
    rw [hlk] at hcv
    simp only [Option.some.injEq] at hcv
    rw [← hcv]
    simp
  | none =>
    rw [hlk] at hcv
    by_cases hp : memStr str protoProps = true
    · rw [if_pos hp] at hcv
      simp only [Option.some.injEq] at hcv
      rw [← hcv]
      simp
    · rw [if_neg hp] at hcv
      simp at hcv

/- The cache can only echo what parse would compute without it. -/

/-- With every resident entry holding the cache-independent parse value of
its key, the value component of parse is the cache-independent value:
the cache changes latency, never the result. -/
theorem parse_value {st : LRUCache} {str : String}
    (hg : ∀ p ∈ st.entries, parseUncached p.1 = .ok p.2 ∧ p.2 ≠ JSVal.nan) :
    Except.map Prod.fst (parse st str) = parseUncached str := by
  by_cases hlen : str.length = 0 ∨ 100 < str.length
  · rw [parse_badlen hlen, parseUncached_badlen hlen]
    rfl
  · cases hlk : lookupList st.entries str with
    | some v =>
      have hv := (hg _ (lookupList_mem hlk)).1
      rw [parse_hit hlen hlk, hv]
      rfl
    | none =>
      cases hcv : commonValuesJS str with
      | some wv =>
        rw [parse_miss_common hlen hlk hcv, parseUncached_common hlen hcv]
        rfl
      | none =>
        rw [parseUncached_gr hlen hcv]
        cases hgr : grammarResult str with
        | error e =>
          rw [parse_miss_err hlen hlk hcv hgr]
          rfl
        | ok v =>
          cases v with
          | nan =>
            rw [parse_miss_nan hlen hlk hcv hgr]
            rfl
          | num q =>
            rw [parse_miss_num hlen hlk hcv hgr]
            rfl
          | protoRef nm =>
            rw [parse_miss_proto hlen hlk hcv hgr]
            rfl

theorem tail_subset {l : List (String × JSVal)} {p : String × JSVal}
    (hp : p ∈ l.tail) : p ∈ l := by
  cases l with
  | nil => simp at hp
  | cons a t => exact List.mem_cons_of_mem _ hp

/-- Inserting the cache-independent (non-NaN) parse value of a key keeps
the cache invariant. -/
theorem set_good {st : LRUCache} {k : String} {wv : JSVal}
    (hG : cacheGood st) (hw : parseUncached k = .ok wv) (hw2 : wv ≠ JSVal.nan) :
    cacheGood (LRUCache.set st k wv) := by
  obtain ⟨hms, hlen, hent⟩ := hG
  rw [LRUCache.set]
  by_cases hpres : (lookupList st.entries k).isSome = true
  · rw [if_pos hpres]
    obtain ⟨v0, hv0⟩ := Option.isSome_iff_exists.mp hpres
    refine ⟨hms, ?_, ?_⟩
    · simp only [List.length_append, List.length_singleton]
      have := eraseKey_length hv0
      omega
    · intro p hp
      rcases List.mem_append.mp hp with h1 | h2
      · exact hent p (eraseKey_subset h1)
      · simp only [List.mem_singleton] at h2
        subst h2
        exact ⟨hw, hw2⟩
  · rw [if_neg hpres]
    by_cases hcap : st.maxSize ≤ st.entries.length
    · rw [if_pos hcap]
      refine ⟨hms, ?_, ?_⟩
      · simp only [List.length_append, List.length_singleton]
        have htl : st.entries.tail.length = st.entries.length - 1 :=
          List.length_tail _
        rw [hms] at hcap
        omega
      · intro p hp
        rcases List.mem_append.mp hp with h1 | h2
        · exact hent p (tail_subset h1)
        · simp only [List.mem_singleton] at h2
          subst h2
          exact ⟨hw, hw2⟩
    · rw [if_neg hcap]
      refine ⟨hms, ?_, ?_⟩
      · simp only [List.length_append, List.length_singleton]
        rw [hms] at hcap
        omega
      · intro p hp
        rcases List.mem_append.mp hp with h1 | h2
        · exact hent p h1
        · simp only [List.mem_singleton] at h2
          subst h2
          exact ⟨hw, hw2⟩

/-- Promoting a resident entry keeps the cache invariant. -/
theorem promote_good {st : LRUCache} {k : String} {wv : JSVal}
    (hG : cacheGood st) (hlk : lookupList st.entries k = some wv) :
    cacheGood ⟨eraseKey st.entries k ++ [(k, wv)], st.maxSize⟩ := by
  obtain ⟨hms, hlen, hent⟩ := hG
  refine ⟨hms, ?_, ?_⟩
  · simp only [List.length_append, List.length_singleton]
    have := eraseKey_length hlk
    omega
  · intro p hp
    rcases List.mem_append.mp hp with h1 | h2
    · exact hent p (eraseKey_subset h1)
    · simp only [List.mem_singleton] at h2
      subst h2
      exact hent _ (lookupList_mem hlk)

/-- Every parse call preserves the cache invariant. -/
theorem parse_preserves {st st' : LRUCache} {str : String} {v : JSVal}
    (hG : cacheGood st) (hp : parse st str = .ok (v, st')) : cacheGood st' := by
  by_cases hlen : str.length = 0 ∨ 100 < str.length
  · rw [parse_badlen hlen] at hp
    simp at hp
  · cases hlk : lookupList st.entries str with
    | some wv =>
      rw [parse_hit hlen hlk] at hp
      injection hp with hp
      injection hp with h1 h2
      rw [← h2]
      exact promote_good hG hlk
    | none =>
      cases hcv : commonValuesJS str with
      | some wv =>
        rw [parse_miss_common hlen hlk hcv] at hp
        injection hp with hp
        injection hp with h1 h2
        rw [← h2]
        exact set_good hG (parseUncached_common hlen hcv) (commonValuesJS_ne_nan hcv)
      | none =>
        cases hgr : grammarResult str with
        | error e =>
          rw [parse_miss_err hlen hlk hcv hgr] at hp
          simp at hp
        | ok gv =>
          cases gv with
          | nan =>
            rw [parse_miss_nan hlen hlk hcv hgr] at hp
            injection hp with hp
            injection hp with h1 h2
            rw [← h2]
            exact hG
          | num q =>
            rw [parse_miss_num hlen hlk hcv hgr] at hp
            injection hp with hp
            injection hp with h1 h2
            rw [← h2]
            refine set_good hG ?_ (by simp)
            rw [parseUncached_gr hlen hcv, hgr]
          | protoRef nm =>
            rw [parse_miss_proto hlen hlk hcv hgr] at hp
            injection hp with hp
            injection hp with h1 h2
            rw [← h2]
            refine set_good hG ?_ (by simp)
            rw [parseUncached_gr hlen hcv, hgr]

/-- Every reachable cache state satisfies the cache invariant. -/
theorem reachable_good {st : LRUCache} (hr : Reachable st) : cacheGood st := by
  induction hr with
  | init => exact ⟨rfl, by simp [initialCache], by simp [initialCache]⟩
  | step hr1 hp ih => exact parse_preserves ih hp

/-- On a string assembled from a value atom, spaces and a unit word, the
cache-independent parse value is parseFloat of the atom times the unit's
multiplier — whether the string is served by the fast-path table (whose
entries agree with the grammar) or by the grammar itself. -/
theorem parseUncached_composed {n sp u : List Char} {mult : Q}
    (hn : numberTok n = true)
    (hsp : ∀ c ∈ sp, isSpaceChar c = true)
    (hu : unitMultipliers (lowerStr u) = some mult)
    (hlen : (n ++ sp ++ u).length ≤ 100) :
    parseUncached (String.mk (n ++ sp ++ u)) = .ok (.num (qMul (numVal n) mult)) := by
  have hg := grammarResult_composed hn hsp hu
  obtain ⟨hn0, hnc⟩ := numberTok_chars hn
  have hlen0 : (n ++ sp ++ u).length ≠ 0 := by
    cases n with
    | nil => exact absurd rfl hn0
    | cons a b => simp
  have hlen2 : ¬((String.mk (n ++ sp ++ u)).length = 0 ∨
      100 < (String.mk (n ++ sp ++ u)).length) := by
    rw [length_mk]
    push_neg
    exact ⟨hlen0, hlen⟩
  cases hcv : commonValuesJS (String.mk (n ++ sp ++ u)) with
  | none => rw [parseUncached_gr hlen2 hcv, hg]
  | some wv =>
    rw [parseUncached_common hlen2 hcv]
    rw [commonValuesJS] at hcv
    cases hlk : lookupList commonValuesList (String.mk (n ++ sp ++ u)) with
    | some q =>
      rw [hlk] at hcv
      simp only [Option.some.injEq] at hcv
      have hq : grammarResult (String.mk (n ++ sp ++ u)) = .ok (.num q) :=
        commonValues_grammar _ (lookupList_mem hlk)
      rw [hg] at hq
      injection hq with hq
      injection hq with hq
      rw [← hcv, ← hq]
    | none =>
      exfalso
      rw [hlk] at hcv
      by_cases hp : memStr (String.mk (n ++ sp ++ u)) protoProps = true
      · have hhead := protoProps_head _ (memStr_mem hp)
        cases n with
        | nil => exact hn0 rfl
        | cons c t =>
          have hcn : isNumChar c = true := hnc c (by simp)
          have hd : (String.mk ((c :: t) ++ sp ++ u)).data.head? = some c := rfl
          rw [hd] at hhead
          have ha : (some c).all (fun x => !isNumChar x) = !isNumChar c := rfl
          rw [ha, hcn] at hhead
          simp at hhead
      · rw [if_neg hp] at hcv
        simp at hcv

/-- A string whose cache-independent parse value is the NaN sentinel is
served the sentinel with the cache untouched: it cannot be resident (only
non-NaN values are cached), it misses the tables, and the NaN branch does
not insert. -/
theorem parse_nonmatch {st : LRUCache} {str : String}
    (hG : cacheGood st) (hnan : parseUncached str = .ok .nan) :
    parse st str = .ok (.nan, st) := by
  by_cases hlen : str.length = 0 ∨ 100 < str.length
  · rw [parseUncached_badlen hlen] at hnan
    simp at hnan
  · cases hlk : lookupList st.entries str with
    | some v =>
      obtain ⟨hv, hvn⟩ := hG.2.2 _ (lookupList_mem hlk)
      rw [hnan] at hv
      injection hv with hv
      exact absurd hv.symm hvn
    | none =>
      cases hcv : commonValuesJS str with
      | some wv =>
        have hww := (parseUncached_common hlen hcv).symm.trans hnan
        injection hww with hww
        exact absurd hww (commonValuesJS_ne_nan hcv)
      | none =>
        have hgr : grammarResult str = .ok .nan := by
          rw [← parseUncached_gr hlen hcv]
          exact hnan
        exact parse_miss_nan hlen hlk hcv hgr

/-- With no resident key, an insert into a full cache drops exactly the
first (oldest) entry and appends the new pair at the most-recent end. -/
theorem set_full_evicts {c : LRUCache} {k : String} {v : JSVal}
    (hl : lookupList c.entries k = none) (hfull : c.entries.length = c.maxSize) :
    LRUCache.set c k v = ⟨c.entries.tail ++ [(k, v)], c.maxSize⟩ := by
  rw [LRUCache.set, hl]
  rw [if_neg (by simp), if_pos (le_of_eq hfull.symm)]

/-- Scenario lemma: in a full cache, touching the oldest entry (k0) and
then inserting a fresh key evicts the second-oldest entry (k1) — not the
promoted one, which survives next to the new pair at the recent end. -/
theorem lru_touch_then_insert {k0 k1 k : String} {v0 v1 v : JSVal}
    {t : List (String × JSVal)}
    (hk : k ∉ ((k0, v0) :: (k1, v1) :: t).map Prod.fst) :
    LRUCache.set (LRUCache.get ⟨(k0, v0) :: (k1, v1) :: t, t.length + 2⟩ k0).2 k v =
      ⟨t ++ [(k0, v0), (k, v)], t.length + 2⟩ := by
  have hl : lookupList (((k0, v0) :: (k1, v1) :: t) : List (String × JSVal)) k0 =
      some v0 := by
    rw [lookupList, if_pos rfl]
  have he : eraseKey ((k0, v0) :: (k1, v1) :: t) k0 = (k1, v1) :: t := by
    rw [eraseKey, if_pos rfl]
  rw [cacheGet_hit hl]
  simp only [he, List.cons_append]
  simp only [List.map_cons, List.mem_cons, not_or] at hk
  have hnone : lookupList ((k1, v1) :: (t ++ [(k0, v0)])) k = none := by
    apply lookupList_eq_none
    intro hmem
    simp only [List.map_cons, List.map_append, List.mem_cons, List.mem_append,
      List.mem_singleton, List.map_nil] at hmem
    tauto
  have hfull : (((k1, v1) :: (t ++ [(k0, v0)])) : List (String × JSVal)).length
      = t.length + 2 := by
    simp
  rw [set_full_evicts hnone hfull]
  simp

/- ===================== The claims ===================== -/

/-- C1: for the spec's literal scenarios, parse returns exactly the stated
millisecond values in every reachable cache state: parse("1s") = 1000,
parse("1h") = 3600000, parse("1.5h") = 5400000, parse(".5h") = 1800000 and
parse("-1h") = -3600000. -/
theorem C1_literal_parse_values (st : LRUCache) (hr : Reachable st) :
    Except.map Prod.fst (parse st "1s") = .ok (.num (qOfInt 1000)) ∧
    Except.map Prod.fst (parse st "1h") = .ok (.num (qOfInt 3600000)) ∧
    Except.map Prod.fst (parse st "1.5h") = .ok (.num (qOfInt 5400000)) ∧
    Except.map Prod.fst (parse st ".5h") = .ok (.num (qOfInt 1800000)) ∧
    Except.map Prod.fst (parse st "-1h") = .ok (.num (qOfInt (-3600000))) := by
  have hG := (reachable_good hr).2.2
  refine ⟨?_, ?_, ?_, ?_, ?_⟩ <;> rw [parse_value hG] <;> decide

/-- Witness for C1 at the initial cache. -/
theorem C1_literal_parse_values_witness :
    Except.map Prod.fst (parse initialCache "1s") = .ok (.num (qOfInt 1000)) ∧
    Except.map Prod.fst (parse initialCache "1h") = .ok (.num (qOfInt 3600000)) ∧
    Except.map Prod.fst (parse initialCache "1.5h") = .ok (.num (qOfInt 5400000)) ∧
    Except.map Prod.fst (parse initialCache ".5h") = .ok (.num (qOfInt 1800000)) ∧
    Except.map Prod.fst (parse initialCache "-1h") = .ok (.num (qOfInt (-3600000))) :=
  C1_literal_parse_values initialCache Reachable.init

/-- C2: the claim says every string of length 100 or more is rejected with
an invalid-argument error.  The guard in the code tests length > 100, so
this 100-character string is accepted and flows through the grammar to the
NaN branch — contradicting the claim and the code's own error message,
which promises rejection outside lengths 1 to 99. -/
theorem C2_length100_accepted :
    (String.mk (List.replicate 100 'a')).length = 100 ∧
    parse initialCache (String.mk (List.replicate 100 'a')) = .ok (.nan, initialCache) := by
  constructor
  · decide
  · decide

/-- C3 counterexample: the claim's last scenario says
format(3599999, long) = "1 hour", but 3599999 is below the hour threshold,
so the code lands in the minute bucket and rounds 59.99998 minutes up,
producing "60 minutes". -/
theorem C3_counterexample :
    format (qOfInt 3599999) true = "60 minutes" ∧
    format (qOfInt 3599999) true ≠ "1 hour" := by
  constructor
  · decide
  · decide

/-- C3 as amended: the verbose formatter's literal scenarios with the last
corrected to what the threshold walk produces: format(3600000) = "1h",
format(3600000, long) = "1 hour", format(5400000, long) = "2 hours", and
format(3599999, long) = "60 minutes". -/
theorem C3_format_literals :
    format (qOfInt 3600000) false = "1h" ∧
    format (qOfInt 3600000) true = "1 hour" ∧
    format (qOfInt 5400000) true = "2 hours" ∧
    format (qOfInt 3599999) true = "60 minutes" := by
  refine ⟨?_, ?_, ?_, ?_⟩ <;> decide

/-- C4 counterexample: the claim says parse("5xyz") raises an error
referencing the unit token; in fact the regex's anchored unit alternation
rejects "xyz", so the match fails as a whole and parse returns the NaN
sentinel as an ordinary value — no error is raised and the unknown-unit
message is never built. -/
theorem C4_counterexample :
    (parse initialCache "5xyz").isOk = true ∧
    Except.map Prod.fst (parse initialCache "5xyz") = .ok .nan := by
  constructor
  · decide
  · decide

/-- C4 as amended: parse("5xyz") does not raise; it returns the NaN
sentinel and leaves the cache unchanged in every reachable state, because
the unknown-unit error can only fire for a regex-matched unit missing from
the multiplier table and the regex's unit words all resolve there. -/
theorem C4_unknown_unit_returns_nan (st : LRUCache) (hr : Reachable st) :
    parse st "5xyz" = .ok (.nan, st) :=
  parse_nonmatch (reachable_good hr) (by decide)

/-- Witness for C4 at the initial cache. -/
theorem C4_unknown_unit_returns_nan_witness :
    parse initialCache "5xyz" = .ok (.nan, initialCache) :=
  C4_unknown_unit_returns_nan initialCache Reachable.init

/-- C5: the claim says every valid-length string the grammar rejects gets
the NaN sentinel back.  "toString" has valid length and fails the grammar,
yet the fast-path table is a plain object literal, so commonValues[str]
finds the inherited Object.prototype.toString function: parse returns that
function (and even caches it) instead of NaN, contradicting the claim and
the function's own contract of returning milliseconds or NaN. -/
theorem C5_proto_leak :
    msMatch "toString" = none ∧
    1 ≤ "toString".length ∧ "toString".length ≤ 99 ∧
    parse initialCache "toString" =
      .ok (.protoRef "toString", ⟨[("toString", .protoRef "toString")], 100⟩) := by
  refine ⟨?_, ?_, ?_, ?_⟩ <;> decide

/-- C6 counterexample: the claim says a fast-path hit involves no cache
interaction and fast-path entries never enter the cache.  Parsing the
fast-path input "1s" from the initial state returns 1000 but also inserts
("1s", 1000) into the LRU cache, visibly changing it. -/
theorem C6_counterexample :
    parse initialCache "1s" =
      .ok (.num (qOfInt 1000), ⟨[("1s", .num (qOfInt 1000))], 100⟩) ∧
    (⟨[("1s", JSVal.num (qOfInt 1000))], 100⟩ : LRUCache) ≠ initialCache := by
  constructor
  · decide
  · decide

/-- C6 as amended: parse consults the LRU cache first; on a cache miss for
a fast-path input it returns the table's precomputed value and inserts the
pair into the LRU cache through the normal insertion path. -/
theorem C6_fastpath_after_cache (st : LRUCache) (str : String) (v : Q)
    (hcv : lookupList commonValuesList str = some v)
    (hmiss : lookupList st.entries str = none) :
    parse st str = .ok (.num v, LRUCache.set st str (.num v)) := by
  have hkl : 1 ≤ str.length ∧ str.length ≤ 100 :=
    commonValues_keyLen _ (lookupList_mem hcv)
  have hlen : ¬(str.length = 0 ∨ 100 < str.length) := by
    push_neg
    exact ⟨by omega, by omega⟩
  have hcj : commonValuesJS str = some (.num v) := by
    rw [commonValuesJS, hcv]
  exact parse_miss_common hlen hmiss hcj

/-- Witness for C6 at the initial cache and the fast-path input "1s". -/
theorem C6_fastpath_after_cache_witness :
    parse initialCache "1s" =
      .ok (.num (qOfInt 1000), LRUCache.set initialCache "1s" (.num (qOfInt 1000))) :=
  C6_fastpath_after_cache initialCache "1s" (qOfInt 1000) (by decide) (by decide)

/-- C7: the LRU cache invariants: every reachable cache holds at most 100
entries; a lookup hit promotes the entry to the most-recently-used end; an
insert of a fresh key into a full cache evicts exactly the oldest entry;
and in the spec's scenario — full cache, touch the oldest, insert a fresh
key — the second-oldest entry is evicted while the promoted one and the
rest survive in order. -/
theorem C7_lru_invariants :
    (∀ st : LRUCache, Reachable st → st.entries.length ≤ 100) ∧
    (∀ (c : LRUCache) (k : String) (v : JSVal),
      lookupList c.entries k = some v →
      LRUCache.get c k = (some v, ⟨eraseKey c.entries k ++ [(k, v)], c.maxSize⟩)) ∧
    (∀ (c : LRUCache) (k : String) (v : JSVal),
      lookupList c.entries k = none → c.entries.length = c.maxSize →
      LRUCache.set c k v = ⟨c.entries.tail ++ [(k, v)], c.maxSize⟩) ∧
    (∀ (k0 k1 k : String) (v0 v1 v : JSVal) (t : List (String × JSVal)),
      k ∉ ((k0, v0) :: (k1, v1) :: t).map Prod.fst →
      LRUCache.set (LRUCache.get ⟨(k0, v0) :: (k1, v1) :: t, t.length + 2⟩ k0).2 k v =
        ⟨t ++ [(k0, v0), (k, v)], t.length + 2⟩) := by
  refine ⟨?_, ?_, ?_, ?_⟩
  · intro st hr
    exact (reachable_good hr).2.1
  · intro c k v hl
    exact cacheGet_hit hl
  · intro c k v hl hfull
    exact set_full_evicts hl hfull
  · intro k0 k1 k v0 v1 v t hk
    exact lru_touch_then_insert hk

/-- Witness for C7: the initial cache obeys the bound; a two-entry cache of
capacity 2 with oldest "k0" promoted and fresh "k2" inserted evicts "k1"
and keeps "k0"; a full one-entry cache evicts its only entry; a hit
promotes. -/
theorem C7_lru_invariants_witness :
    initialCache.entries.length ≤ 100 ∧
    LRUCache.get ⟨[("a", JSVal.num (qOfInt 1))], 5⟩ "a" =
      (some (JSVal.num (qOfInt 1)), ⟨[("a", JSVal.num (qOfInt 1))], 5⟩) ∧
    LRUCache.set ⟨[("b", JSVal.num (qOfInt 2))], 1⟩ "c" (JSVal.num (qOfInt 3)) =
      ⟨[("c", JSVal.num (qOfInt 3))], 1⟩ ∧
    LRUCache.set
        (LRUCache.get ⟨[("k0", JSVal.num (qOfInt 1)), ("k1", JSVal.num (qOfInt 2))], 2⟩
          "k0").2 "k2" (JSVal.num (qOfInt 3)) =
      ⟨[("k0", JSVal.num (qOfInt 1)), ("k2", JSVal.num (qOfInt 3))], 2⟩ :=
  ⟨C7_lru_invariants.1 initialCache Reachable.init,
   C7_lru_invariants.2.1 ⟨[("a", JSVal.num (qOfInt 1))], 5⟩ "a" (JSVal.num (qOfInt 1))
     (by decide),
   C7_lru_invariants.2.2.1 ⟨[("b", JSVal.num (qOfInt 2))], 1⟩ "c" (JSVal.num (qOfInt 3))
     (by decide) (by decide),
   C7_lru_invariants.2.2.2 "k0" "k1" "k2" (JSVal.num (qOfInt 1)) (JSVal.num (qOfInt 2))
     (JSVal.num (qOfInt 3)) [] (by decide)⟩

/-- C8: parse is observably idempotent — in any two reachable cache states
(hence across any interleaving of calls) parse returns the same value for
the same string — and every fast-path table entry's value is exactly what
the grammar-and-unit-table path computes for its key. -/
theorem C8_parse_deterministic :
    (∀ (st1 st2 : LRUCache) (str : String), Reachable st1 → Reachable st2 →
      Except.map Prod.fst (parse st1 str) = Except.map Prod.fst (parse st2 str)) ∧
    (∀ p ∈ commonValuesList, grammarResult p.1 = .ok (.num p.2)) := by
  constructor
  · intro st1 st2 str h1 h2
    rw [parse_value (reachable_good h1).2.2, parse_value (reachable_good h2).2.2]
  · exact commonValues_grammar

/-- Witness for C8: parsing "2h" in the initial cache and in the reachable
state left by a previous parse of "1s" yields the same value, and the
fast-path entry for "1s" agrees with the grammar path. -/
theorem C8_parse_deterministic_witness :
    Except.map Prod.fst (parse initialCache "2h") =
      Except.map Prod.fst (parse ⟨[("1s", JSVal.num (qOfInt 1000))], 100⟩ "2h") ∧
    grammarResult "1s" = .ok (.num (qOfInt 1000)) :=
  ⟨C8_parse_deterministic.1 initialCache ⟨[("1s", JSVal.num (qOfInt 1000))], 100⟩ "2h"
     Reachable.init
     (Reachable.step Reachable.init
       (by decide :
         parse initialCache "1s" =
           .ok (.num (qOfInt 1000), ⟨[("1s", JSVal.num (qOfInt 1000))], 100⟩))),
   C8_parse_deterministic.2 ("1s", qOfInt 1000) (by decide)⟩

/-- C9: for a fixed magnitude, every accepted spelling variant of a unit —
any spacing, any letter case — yields the identical parse result, namely
the magnitude times the spelling's (shared) multiplier; in particular both
composed strings below parse to the same value in any reachable state. -/
theorem C9_unit_spelling_equivalence (st : LRUCache) (n sp1 sp2 u1 u2 : List Char)
    (mult : Q) (hr : Reachable st)
    (hn : numberTok n = true)
    (hsp1 : ∀ c ∈ sp1, isSpaceChar c = true)
    (hsp2 : ∀ c ∈ sp2, isSpaceChar c = true)
    (hu1 : unitMultipliers (lowerStr u1) = some mult)
    (hu2 : unitMultipliers (lowerStr u2) = some mult)
    (hlen1 : (n ++ sp1 ++ u1).length ≤ 100)
    (hlen2 : (n ++ sp2 ++ u2).length ≤ 100) :
    Except.map Prod.fst (parse st (String.mk (n ++ sp1 ++ u1))) =
      Except.map Prod.fst (parse st (String.mk (n ++ sp2 ++ u2))) ∧
    Except.map Prod.fst (parse st (String.mk (n ++ sp1 ++ u1))) =
      .ok (.num (qMul (numVal n) mult)) := by
  have hG := (reachable_good hr).2.2
  have h1 : Except.map Prod.fst (parse st (String.mk (n ++ sp1 ++ u1))) =
      .ok (.num (qMul (numVal n) mult)) := by
    rw [parse_value hG]
    exact parseUncached_composed hn hsp1 hu1 hlen1
  have h2 : Except.map Prod.fst (parse st (String.mk (n ++ sp2 ++ u2))) =
      .ok (.num (qMul (numVal n) mult)) := by
    rw [parse_value hG]
    exact parseUncached_composed hn hsp2 hu2 hlen2
  exact ⟨h1.trans h2.symm, h1⟩

/-- Witness for C9: parse("2h") and parse("2 HOURS") agree (both are 2
times the hour multiplier) from the initial cache. -/
theorem C9_unit_spelling_equivalence_witness :
    Except.map Prod.fst (parse initialCache (String.mk (['2'] ++ [] ++ ['h']))) =
      Except.map Prod.fst
        (parse initialCache (String.mk (['2'] ++ [' '] ++ ['H', 'O', 'U', 'R', 'S']))) ∧
    Except.map Prod.fst (parse initialCache (String.mk (['2'] ++ [] ++ ['h']))) =
      .ok (.num (qMul (numVal ['2']) h)) :=
  C9_unit_spelling_equivalence initialCache ['2'] [] [' '] ['h']
    ['H', 'O', 'U', 'R', 'S'] h Reachable.init (by decide) (by decide) (by decide)
    (by decide) (by decide) (by decide) (by decide)

/-- C10: the claim says a valid-length non-matching input returns NaN with
the cache exactly unchanged, so that resident entries always map to
computed millisecond values.  "valueOf" has valid length and fails the
grammar, yet parse returns the inherited Object.prototype.valueOf function
and inserts that non-numeric value into the cache, changing it. -/
theorem C10_cache_pollution :
    msMatch "valueOf" = none ∧
    1 ≤ "valueOf".length ∧ "valueOf".length ≤ 99 ∧
    parse initialCache "valueOf" =
      .ok (.protoRef "valueOf", ⟨[("valueOf", .protoRef "valueOf")], 100⟩) := by
  refine ⟨?_, ?_, ?_, ?_⟩ <;> decide

end Ms
